import Mathlib

/-!
Verification of the maze-file format core of the repository:
MazeFileUtilities::isMazeFile (the format validator), saveMaze (the
serializer) and loadMaze (the deserializer), embedded shallowly.  A file is
modelled by whether the path names a file, whether it opens, and the list of
lines getline yields, each line a list of characters.  The helper utilities
SimUtilities::tokenize, isInt, strToInt and the direction ordering are not
under src/ and are modelled from the spec where noted.
-/

namespace Sim

set_option autoImplicit false

/-- A whitespace character, as the tokenizer sees it (space or tab). -/
def isWhitespaceChar (c : Char) : Bool := c = ' ' || c = '\t'

/-- Modelled from the spec: SimUtilities::tokenize (not under src/) splits a
line on whitespace into its maximal non-whitespace runs.  The accumulator
holds the characters of the current token in reverse. -/
def tokenizeAux : List Char → List Char → List (List Char)
  | [], acc => if acc = [] then [] else [acc.reverse]
  | c :: cs, acc =>
    if isWhitespaceChar c then
      if acc = [] then tokenizeAux cs [] else acc.reverse :: tokenizeAux cs []
    else
      tokenizeAux cs (c :: acc)

/-- Modelled from the spec: splitting a line on whitespace into tokens. -/
def tokenize (line : List Char) : List (List Char) := tokenizeAux line []

/-- Modelled from the spec: SimUtilities::isInt (not under src/) accepts
base-10 integer literals with an optional leading sign. -/
def isInt (s : List Char) : Bool :=
  match s with
  | [] => false
  | c :: rest =>
    if c = '-' || c = '+' then !rest.isEmpty && rest.all Char.isDigit
    else (c :: rest).all Char.isDigit

/-- Value of a base-10 digit string, accumulator style. -/
def digitsToNat : Nat → List Char → Nat
  | acc, [] => acc
  | acc, c :: cs => digitsToNat (acc * 10 + (c.toNat - 48)) cs

/-- Modelled from the spec: SimUtilities::strToInt (not under src/) reads a
base-10 integer with an optional leading sign. -/
def strToInt (s : List Char) : Int :=
  match s with
  | [] => 0
  | c :: rest =>
    if c = '-' then -(digitsToNat 0 rest : Int)
    else if c = '+' then (digitsToNat 0 rest : Int)
    else (digitsToNat 0 (c :: rest) : Int)

/-- Diagnostics of MazeFileUtilities::isMazeFile: one constructor for each
early return-false (with its warn message) of the source, plus ok. -/
inductive CheckResult where
  | ok
  | notAFile
  | cannotOpen
  | emptyFile
  | wrongTokenCount (lineNum count : Nat)
  | nonNumeric (lineNum pos : Nat) (token : List Char)
  | unexpectedCoord (lineNum : Nat) (x y : Int)
  | invalidWall (lineNum pos : Nat) (value : Int)
  deriving DecidableEq

/-- The numeric check loop of isMazeFile: first token that is not an
integer, with its 0-based index. -/
def firstNonIntAux : Nat → List (List Char) → Option (Nat × List Char)
  | _, [] => none
  | i, t :: ts => if isInt t then firstNonIntAux (i + 1) ts else some (i, t)

/-- The wall check loop of isMazeFile: first wall value that is neither 0
nor 1, with its 0-based index. -/
def firstBadWall : Nat → List Int → Option (Nat × Int)
  | _, [] => none
  | i, v :: vs => if v = 0 ∨ v = 1 then firstBadWall (i + 1) vs else some (i, v)

/-- One iteration of the isMazeFile while-loop, on the tokens of the line:
either the diagnostic of the first failing check, or the updated
(expectedX, expectedY) state.  Checks run in source order: six tokens, all
numeric, expected coordinates, then wall values. -/
def checkLine (lineNum : Nat) (expectedX expectedY : Int) (tokens : List (List Char)) :
    CheckResult ⊕ (Int × Int) :=
  match tokens with
  | [t0, t1, t2, t3, t4, t5] =>
    match firstNonIntAux 0 [t0, t1, t2, t3, t4, t5] with
    | some (i, tok) => Sum.inl (CheckResult.nonNumeric (lineNum + 1) (i + 1) tok)
    | none =>
      match (if strToInt t0 = expectedX ∧ strToInt t1 = expectedY then
          some (expectedX, expectedY + 1)
        else if strToInt t0 = expectedX + 1 ∧ strToInt t1 = 0 ∧ ¬ expectedY = 0 then
          some (expectedX + 1, 1)
        else none : Option (Int × Int)) with
      | none => Sum.inl (CheckResult.unexpectedCoord (lineNum + 1) (strToInt t0) (strToInt t1))
      | some state =>
        match firstBadWall 0 [strToInt t2, strToInt t3, strToInt t4, strToInt t5] with
        | some (i, v) => Sum.inl (CheckResult.invalidWall (lineNum + 1) (2 + i + 1) v)
        | none => Sum.inr state
  | ts => Sum.inl (CheckResult.wrongTokenCount (lineNum + 1) ts.length)

/-- The while-loop of isMazeFile over the remaining lines, carrying the line
counter (incremented to 1-based inside checkLine) and the expected
coordinates. -/
def checkLines : Nat → Int → Int → List (List Char) → CheckResult
  | _, _, _, [] => CheckResult.ok
  | lineNum, expectedX, expectedY, line :: rest =>
    match checkLine lineNum expectedX expectedY (tokenize line) with
    | Sum.inl e => e
    | Sum.inr state => checkLines (lineNum + 1) state.1 state.2 rest

/-- Abstraction of the file handed to isMazeFile: whether the path names a
file, whether the stream opens, and the lines getline yields.  The peek-eof
emptiness test of the source holds exactly when that list is empty. -/
structure MazeFile where
  isFile : Bool
  canOpen : Bool
  lines : List (List Char)

/-- MazeFileUtilities::isMazeFile together with its diagnostic: the file
checks in source order, then the per-line loop starting from
lineNum = 0, expectedX = 0, expectedY = 0. -/
def isMazeFileCheck (f : MazeFile) : CheckResult :=
  if ¬ f.isFile then CheckResult.notAFile
  else if ¬ f.canOpen then CheckResult.cannotOpen
  else if f.lines.isEmpty then CheckResult.emptyFile
  else checkLines 0 0 0 f.lines

/-- MazeFileUtilities::isMazeFile: true exactly when no check fails. -/
def isMazeFile (f : MazeFile) : Bool := isMazeFileCheck f == CheckResult.ok

/-- The four cardinal directions of BasicTile. -/
inductive Direction where
  | north
  | east
  | south
  | west
  deriving DecidableEq

/-- Modelled from the spec: the fixed direction ordering DIRECTIONS (not
under src/) is north, east, south, west. -/
def DIRECTIONS : List Direction :=
  [Direction.north, Direction.east, Direction.south, Direction.west]

/-- Modelled from the spec: SimUtilities::getDirectionIndex (not under src/)
is the position of the direction in DIRECTIONS. -/
def getDirectionIndex : Direction → Nat
  | Direction.north => 0
  | Direction.east => 1
  | Direction.south => 2
  | Direction.west => 3

/-- A cell of the grid: one boundary-wall flag per cardinal direction. -/
structure BasicTile where
  north : Bool
  east : Bool
  south : Bool
  west : Bool
  deriving DecidableEq

/-- The walls map of a BasicTile, keyed by direction. -/
def BasicTile.walls (t : BasicTile) : Direction → Bool
  | Direction.north => t.north
  | Direction.east => t.east
  | Direction.south => t.south
  | Direction.west => t.west

/-- The character of a decimal digit. -/
def digitCh (m : Nat) : Char :=
  if m = 0 then '0'
  else if m = 1 then '1'
  else if m = 2 then '2'
  else if m = 3 then '3'
  else if m = 4 then '4'
  else if m = 5 then '5'
  else if m = 6 then '6'
  else if m = 7 then '7'
  else if m = 8 then '8'
  else '9'

/-- Decimal digits of n prepended to acc; fuel-driven so that it computes by
kernel reduction, natToChars supplies fuel larger than n. -/
def natToCharsAux : Nat → Nat → List Char → List Char
  | 0, _, acc => acc
  | fuel + 1, n, acc =>
    if n / 10 = 0 then digitCh (n % 10) :: acc
    else natToCharsAux fuel (n / 10) (digitCh (n % 10) :: acc)

/-- Decimal rendering of a nonnegative int, as the output stream prints it. -/
def natToChars (n : Nat) : List Char := natToCharsAux (n + 1) n []

/-- One line written by MazeFileUtilities::saveMaze: x, then y, then one 0/1
flag per direction of DIRECTIONS, space separated. -/
def saveLine (x y : Nat) (t : BasicTile) : List Char :=
  natToChars x ++ [' '] ++ natToChars y
    ++ (DIRECTIONS.map (fun d => [' ', if t.walls d then '1' else '0'])).flatten

/-- The inner y-loop of saveMaze over the column at index x. -/
def saveColFrom (x : Nat) : Nat → List BasicTile → List (List Char)
  | _, [] => []
  | y, t :: ts => saveLine x y t :: saveColFrom x (y + 1) ts

/-- The outer x-loop of saveMaze. -/
def saveFrom : Nat → List (List BasicTile) → List (List Char)
  | _, [] => []
  | x, col :: cols => saveColFrom x 0 col ++ saveFrom (x + 1) cols

/-- MazeFileUtilities::saveMaze, as the list of lines it writes. -/
def saveMaze (maze : List (List BasicTile)) : List (List Char) := saveFrom 0 maze

/-- The BasicTile that loadMaze builds from the tokens of one line:
direction d gets the flag 1 == strToInt(tokens.at(2 + getDirectionIndex(d))). -/
def loadTile (tokens : List (List Char)) : BasicTile :=
  { north := 1 == strToInt (tokens.getD (2 + getDirectionIndex Direction.north) [])
    east := 1 == strToInt (tokens.getD (2 + getDirectionIndex Direction.east) [])
    south := 1 == strToInt (tokens.getD (2 + getDirectionIndex Direction.south) [])
    west := 1 == strToInt (tokens.getD (2 + getDirectionIndex Direction.west) []) }

/-- The getline loop of loadMaze: the grid built so far, the column being
filled, and the remaining lines.  A new column is detected when the grid is
shorter than the x-value of the line; the final column is appended
unconditionally after the loop.  As in the source, the precondition that the
file passed isMazeFile is not re-checked here. -/
def loadMazeAux : List (List BasicTile) → List BasicTile → List (List Char) → List (List BasicTile)
  | maze, column, [] => maze ++ [column]
  | maze, column, line :: rest =>
    if (maze.length : Int) < strToInt ((tokenize line).getD 0 []) then
      loadMazeAux (maze ++ [column]) [loadTile (tokenize line)] rest
    else
      loadMazeAux maze (column ++ [loadTile (tokenize line)]) rest

/-- MazeFileUtilities::loadMaze over the lines of the file. -/
def loadMaze (lines : List (List Char)) : List (List BasicTile) := loadMazeAux [] [] lines

/-- The x-value of a line: its first token read as an integer. -/
def xOf (line : List Char) : Int := strToInt ((tokenize line).getD 0 [])

/-- The y-value of a line: its second token read as an integer. -/
def yOf (line : List Char) : Int := strToInt ((tokenize line).getD 1 [])

/-- The (x, y) pairs named by the lines, top to bottom. -/
def coordsOf (lines : List (List Char)) : List (Int × Int) :=
  lines.map (fun l => (xOf l, yOf l))

/-- The coordinate state machine of isMazeFile on the parsed pairs alone:
case one continues the column, case two starts the next column. -/
def checkCoords : Int → Int → List (Int × Int) → Bool
  | _, _, [] => true
  | expectedX, expectedY, (x, y) :: rest =>
    if x = expectedX ∧ y = expectedY then checkCoords expectedX (expectedY + 1) rest
    else if x = expectedX + 1 ∧ y = 0 ∧ ¬ expectedY = 0 then checkCoords (expectedX + 1) 1 rest
    else false

/-- The m pairs (x, y), (x, y+1), ..., (x, y+m-1). -/
def colFrom (x y : Int) (m : Nat) : List (Int × Int) :=
  (List.range m).map (fun j : Nat => (x, y + (j : Int)))

/-- The enumeration (x,0)..(x,k0-1), (x+1,0)..(x+1,k1-1), ... of the claim:
column lengths ks, starting at column x. -/
def gridCoordsFrom : Int → List Nat → List (Int × Int)
  | _, [] => []
  | x, k :: ks => colFrom x 0 k ++ gridCoordsFrom (x + 1) ks

/-- The x-values of that enumeration: each column index repeated its
length many times. -/
def gridXs : Int → List Nat → List Int
  | _, [] => []
  | x, k :: ks => List.replicate k x ++ gridXs (x + 1) ks

/-- A line that tokenizes into exactly six base-10 integers whose last four
are 0 or 1. -/
def wellFormedLine (line : List Char) : Prop :=
  (tokenize line).length = 6 ∧ (∀ t ∈ tokenize line, isInt t = true) ∧
    ∀ t ∈ (tokenize line).drop 2, strToInt t = 0 ∨ strToInt t = 1

instance (line : List Char) : Decidable (wellFormedLine line) := by
  unfold wellFormedLine
  infer_instance

/-- The line 0 0 0 0 0 0. -/
def line000000 : List Char := ['0', ' ', '0', ' ', '0', ' ', '0', ' ', '0', ' ', '0']

/-- The line 1 0 0 0 0 0. -/
def line100000 : List Char := ['1', ' ', '0', ' ', '0', ' ', '0', ' ', '0', ' ', '0']

/-- The line 1 1 0 0 0 0. -/
def line110000 : List Char := ['1', ' ', '1', ' ', '0', ' ', '0', ' ', '0', ' ', '0']

/-- The line 2 0 0 0 0 0. -/
def line200000 : List Char := ['2', ' ', '0', ' ', '0', ' ', '0', ' ', '0', ' ', '0']

/-- The line 0 1 0 0 0 0 (an unexpected coordinate as a first line). -/
def line010000 : List Char := ['0', ' ', '1', ' ', '0', ' ', '0', ' ', '0', ' ', '0']

/-- The line 1 2 3, which has only three tokens. -/
def lineThreeTokens : List Char := ['1', ' ', '2', ' ', '3']

/-- The line 0 0 0 0 0 2, whose fourth wall value is 2. -/
def line000002 : List Char := ['0', ' ', '0', ' ', '0', ' ', '0', ' ', '0', ' ', '2']

/-- A sample tile with walls on the north and south sides. -/
def sampleTile : BasicTile := { north := true, east := false, south := true, west := false }

/-! Tokenizer lemmas. -/

theorem tokenizeAux_nonws_append :
    ∀ t : List Char, (∀ c ∈ t, isWhitespaceChar c = false) →
      ∀ cs acc, tokenizeAux (t ++ cs) acc = tokenizeAux cs (t.reverse ++ acc) := by
  intro t
  induction t with
  | nil => intro _ cs acc; simp
  | cons c ts ih =>
    intro h cs acc
    have hc : isWhitespaceChar c = false := h c (List.mem_cons_self c ts)
    have hts : ∀ a ∈ ts, isWhitespaceChar a = false :=
      fun a ha => h a (List.mem_cons_of_mem c ha)
    simp only [List.cons_append, tokenizeAux, hc, Bool.false_eq_true, if_false]
    show tokenizeAux (ts ++ cs) (c :: acc) = tokenizeAux cs ((c :: ts).reverse ++ acc)
    rw [ih hts cs (c :: acc)]
    simp

theorem tokenizeAux_space (cs acc : List Char) (h : acc ≠ []) :
    tokenizeAux (' ' :: cs) acc = acc.reverse :: tokenizeAux cs [] := by
  have hws : isWhitespaceChar ' ' = true := by decide
  simp [tokenizeAux, hws, h]

theorem tokenizeAux_nil_acc (acc : List Char) (h : acc ≠ []) :
    tokenizeAux [] acc = [acc.reverse] := by
  simp [tokenizeAux, h]

theorem tokenizeAux_blocks :
    ∀ ts : List (List Char),
      (∀ t ∈ ts, t ≠ [] ∧ ∀ c ∈ t, isWhitespaceChar c = false) →
      ∀ acc, acc ≠ [] →
        tokenizeAux ((ts.map (fun t => ' ' :: t)).flatten) acc = acc.reverse :: ts := by
  intro ts
  induction ts with
  | nil =>
    intro _ acc hacc
    simpa using tokenizeAux_nil_acc acc hacc
  | cons t ts ih =>
    intro h acc hacc
    obtain ⟨ht, htw⟩ := h t (List.mem_cons_self t ts)
    rw [List.map_cons, List.flatten_cons, List.cons_append]
    rw [tokenizeAux_space _ _ hacc]
    rw [tokenizeAux_nonws_append t htw _ []]
    rw [List.append_nil]
    rw [ih (fun u hu => h u (List.mem_cons_of_mem t hu)) t.reverse (by simpa using ht)]
    simp

theorem tokenize_sep (t0 : List Char) (ts : List (List Char))
    (h0 : t0 ≠ []) (h0w : ∀ c ∈ t0, isWhitespaceChar c = false)
    (h : ∀ t ∈ ts, t ≠ [] ∧ ∀ c ∈ t, isWhitespaceChar c = false) :
    tokenize (t0 ++ (ts.map (fun t => ' ' :: t)).flatten) = t0 :: ts := by
  unfold tokenize
  rw [tokenizeAux_nonws_append t0 h0w _ [], List.append_nil]
  rw [tokenizeAux_blocks ts h t0.reverse (by simpa using h0)]
  simp

/-! Decimal rendering and parsing lemmas. -/

theorem digitsToNat_append (xs ys : List Char) (a : Nat) :
    digitsToNat a (xs ++ ys) = digitsToNat (digitsToNat a xs) ys := by
  induction xs generalizing a with
  | nil => rfl
  | cons c cs ih => exact ih (a * 10 + (c.toNat - 48))

theorem digitCh_isDigit (m : Nat) : (digitCh m).isDigit = true := by
  unfold digitCh
  split_ifs <;> decide

theorem digitCh_val (m : Nat) (h : m < 10) : (digitCh m).toNat - 48 = m := by
  unfold digitCh
  split_ifs with h0 h1 h2 h3 h4 h5 h6 h7 h8
  · subst h0; decide
  · subst h1; decide
  · subst h2; decide
  · subst h3; decide
  · subst h4; decide
  · subst h5; decide
  · subst h6; decide
  · subst h7; decide
  · subst h8; decide
  · have h9 : m = 9 := by omega
    subst h9; decide

theorem natToCharsAux_spec :
    ∀ fuel n : Nat, n < fuel → ∀ acc, ∃ ds,
      natToCharsAux fuel n acc = ds ++ acc ∧ ds ≠ [] ∧
        (∀ c ∈ ds, c.isDigit = true) ∧ digitsToNat 0 ds = n := by
  intro fuel
  induction fuel with
  | zero => intro n h; omega
  | succ f ih =>
    intro n h acc
    by_cases h10 : n / 10 = 0
    · refine ⟨[digitCh (n % 10)], ?_, by simp, ?_, ?_⟩
      · simp [natToCharsAux, h10]
      · intro c hc
        rw [List.mem_singleton] at hc
        subst hc
        exact digitCh_isDigit _
      · have hv : (digitCh (n % 10)).toNat - 48 = n % 10 := digitCh_val _ (by omega)
        show 0 * 10 + ((digitCh (n % 10)).toNat - 48) = n
        rw [hv]
        omega
    · have hn : n / 10 < n := Nat.div_lt_self (by omega) (by norm_num)
      have hlt : n / 10 < f := by omega
      obtain ⟨ds, hds, hne, hdig, hval⟩ := ih (n / 10) hlt (digitCh (n % 10) :: acc)
      refine ⟨ds ++ [digitCh (n % 10)], ?_, by simp [hne], ?_, ?_⟩
      · rw [natToCharsAux]
        simp only [h10, if_false]
        rw [hds]
        simp
      · intro c hc
        rcases List.mem_append.1 hc with hc | hc
        · exact hdig c hc
        · rw [List.mem_singleton] at hc
          subst hc
          exact digitCh_isDigit _
      · rw [digitsToNat_append, hval]
        have hv : (digitCh (n % 10)).toNat - 48 = n % 10 := digitCh_val _ (by omega)
        show (n / 10) * 10 + ((digitCh (n % 10)).toNat - 48) = n
        rw [hv]
        omega

theorem natToChars_spec (n : Nat) :
    natToChars n ≠ [] ∧ (∀ c ∈ natToChars n, c.isDigit = true) ∧
      digitsToNat 0 (natToChars n) = n := by
  obtain ⟨ds, hds, hne, hdig, hval⟩ := natToCharsAux_spec (n + 1) n (by omega) []
  unfold natToChars
  rw [hds, List.append_nil]
  exact ⟨hne, hdig, hval⟩

theorem digit_char_facts {c : Char} (h : c.isDigit = true) :
    c ≠ '-' ∧ c ≠ '+' ∧ isWhitespaceChar c = false := by
  refine ⟨?_, ?_, ?_⟩
  · rintro rfl; exact absurd h (by decide)
  · rintro rfl; exact absurd h (by decide)
  · have h1 : c ≠ ' ' := by rintro rfl; exact absurd h (by decide)
    have h2 : c ≠ '\t' := by rintro rfl; exact absurd h (by decide)
    simp [isWhitespaceChar, h1, h2]

theorem natToChars_not_ws (n : Nat) :
    ∀ c ∈ natToChars n, isWhitespaceChar c = false :=
  fun c hc => (digit_char_facts ((natToChars_spec n).2.1 c hc)).2.2

theorem strToInt_natToChars (n : Nat) : strToInt (natToChars n) = (n : Int) := by
  obtain ⟨hne, hdig, hval⟩ := natToChars_spec n
  rcases hds : natToChars n with _ | ⟨c, rest⟩
  · exact absurd hds hne
  · rw [hds] at hdig hval
    have hc := hdig c (List.mem_cons_self c rest)
    obtain ⟨hm, hp, _⟩ := digit_char_facts hc
    simp only [strToInt, hm, hp, if_false]
    exact_mod_cast hval

theorem isInt_natToChars (n : Nat) : isInt (natToChars n) = true := by
  obtain ⟨hne, hdig, _⟩ := natToChars_spec n
  rcases hds : natToChars n with _ | ⟨c, rest⟩
  · exact absurd hds hne
  · rw [hds] at hdig
    have hc := hdig c (List.mem_cons_self c rest)
    obtain ⟨hm, hp, _⟩ := digit_char_facts hc
    have hcond : (c = '-' || c = '+') = false := by simp [hm, hp]
    simp only [isInt, hcond, Bool.false_eq_true, if_false]
    rw [List.all_eq_true]
    intro a ha
    exact hdig a ha

theorem tokenize_saveLine (x y : Nat) (t : BasicTile) :
    tokenize (saveLine x y t) =
      [natToChars x, natToChars y,
        [if t.walls Direction.north then '1' else '0'],
        [if t.walls Direction.east then '1' else '0'],
        [if t.walls Direction.south then '1' else '0'],
        [if t.walls Direction.west then '1' else '0']] := by
  have hshape : saveLine x y t = natToChars x ++
      (([natToChars y,
        [if t.walls Direction.north then '1' else '0'],
        [if t.walls Direction.east then '1' else '0'],
        [if t.walls Direction.south then '1' else '0'],
        [if t.walls Direction.west then '1' else '0']]).map (fun s => ' ' :: s)).flatten := by
    simp [saveLine, DIRECTIONS]
  rw [hshape]
  rw [tokenize_sep (natToChars x) _ (natToChars_spec x).1 (natToChars_not_ws x) ?_]
  intro u hu
  simp only [List.mem_cons, List.mem_singleton, List.not_mem_nil, or_false] at hu
  rcases hu with rfl | rfl | rfl | rfl | rfl
  · exact ⟨(natToChars_spec y).1, natToChars_not_ws y⟩
  · constructor
    · simp
    · intro c hc
      rw [List.mem_singleton] at hc
      subst hc
      cases t.walls Direction.north <;> decide
  · constructor
    · simp
    · intro c hc
      rw [List.mem_singleton] at hc
      subst hc
      cases t.walls Direction.east <;> decide
  · constructor
    · simp
    · intro c hc
      rw [List.mem_singleton] at hc
      subst hc
      cases t.walls Direction.south <;> decide
  · constructor
    · simp
    · intro c hc
      rw [List.mem_singleton] at hc
      subst hc
      cases t.walls Direction.west <;> decide

/-! Checker-layer lemmas. -/

theorem length_six_shape {α : Type} : ∀ l : List α, l.length = 6 →
    ∃ a b c d e f, l = [a, b, c, d, e, f] := by
  intro l h
  rcases l with _ | ⟨a, l⟩
  · simp at h
  rcases l with _ | ⟨b, l⟩
  · simp at h
  rcases l with _ | ⟨c, l⟩
  · simp at h
  rcases l with _ | ⟨d, l⟩
  · simp at h
  rcases l with _ | ⟨e, l⟩
  · simp at h
  rcases l with _ | ⟨f, l⟩
  · simp at h
  rcases l with _ | ⟨g, l⟩
  · exact ⟨a, b, c, d, e, f, rfl⟩
  · simp at h

theorem firstNonIntAux_eq_none_iff :
    ∀ (ts : List (List Char)) (i : Nat),
      firstNonIntAux i ts = none ↔ ∀ t ∈ ts, isInt t = true := by
  intro ts
  induction ts with
  | nil => intro i; simp [firstNonIntAux]
  | cons t ts ih =>
    intro i
    by_cases h : isInt t = true
    · rw [firstNonIntAux, if_pos h, ih (i + 1)]
      constructor
      · intro hall u hu
        rcases List.mem_cons.1 hu with rfl | hu
        · exact h
        · exact hall u hu
      · intro hall u hu
        exact hall u (List.mem_cons_of_mem t hu)
    · rw [firstNonIntAux, if_neg h]
      constructor
      · intro hs; simp at hs
      · intro hall
        exact absurd (hall t (List.mem_cons_self t ts)) h

theorem firstBadWall_eq_none_iff :
    ∀ (vs : List Int) (i : Nat),
      firstBadWall i vs = none ↔ ∀ v ∈ vs, v = 0 ∨ v = 1 := by
  intro vs
  induction vs with
  | nil => intro i; simp [firstBadWall]
  | cons v vs ih =>
    intro i
    by_cases h : v = 0 ∨ v = 1
    · rw [firstBadWall, if_pos h, ih (i + 1)]
      constructor
      · intro hall u hu
        rcases List.mem_cons.1 hu with rfl | hu
        · exact h
        · exact hall u hu
      · intro hall u hu
        exact hall u (List.mem_cons_of_mem v hu)
    · rw [firstBadWall, if_neg h]
      constructor
      · intro hs; simp at hs
      · intro hall
        exact absurd (hall v (List.mem_cons_self v vs)) h

theorem checkLine_of_wf (lineNum : Nat) (ex ey : Int) (line : List Char)
    (h : wellFormedLine line) :
    checkLine lineNum ex ey (tokenize line) =
      if xOf line = ex ∧ yOf line = ey then Sum.inr (ex, ey + 1)
      else if xOf line = ex + 1 ∧ yOf line = 0 ∧ ¬ ey = 0 then Sum.inr (ex + 1, 1)
      else Sum.inl (CheckResult.unexpectedCoord (lineNum + 1) (xOf line) (yOf line)) := by
  obtain ⟨hlen, hint, hwall⟩ := h
  obtain ⟨t0, t1, t2, t3, t4, t5, hts⟩ := length_six_shape _ hlen
  have hx : xOf line = strToInt t0 := by rw [xOf, hts]; rfl
  have hy : yOf line = strToInt t1 := by rw [yOf, hts]; rfl
  rw [hts] at hint hwall
  have hfni : firstNonIntAux 0 [t0, t1, t2, t3, t4, t5] = none :=
    (firstNonIntAux_eq_none_iff _ 0).2 hint
  have hfbw : firstBadWall 0 [strToInt t2, strToInt t3, strToInt t4, strToInt t5] = none := by
    rw [firstBadWall_eq_none_iff]
    intro v hv
    simp only [List.mem_cons, List.not_mem_nil, or_false] at hv
    rcases hv with rfl | rfl | rfl | rfl
    · exact hwall t2 (by simp)
    · exact hwall t3 (by simp)
    · exact hwall t4 (by simp)
    · exact hwall t5 (by simp)
  rw [hts, hx, hy]
  simp only [checkLine, hfni, hfbw]
  split_ifs with h1 h2 <;> rfl

theorem checkLine_inr_wf (n : Nat) (ex ey : Int) (ts : List (List Char)) (st : Int × Int)
    (h : checkLine n ex ey ts = Sum.inr st) :
    ts.length = 6 ∧ (∀ t ∈ ts, isInt t = true) ∧
      ∀ t ∈ ts.drop 2, strToInt t = 0 ∨ strToInt t = 1 := by
  unfold checkLine at h
  split at h
  · split at h
    · simp at h
    next hfni =>
      split at h
      · simp at h
      · split at h
        · simp at h
        next hfbw =>
          refine ⟨by simp, (firstNonIntAux_eq_none_iff _ 0).1 hfni, ?_⟩
          intro t ht
          have hall := (firstBadWall_eq_none_iff _ 0).1 hfbw
          simp only [List.drop, List.mem_cons, List.not_mem_nil, or_false] at ht
          rcases ht with rfl | rfl | rfl | rfl
          · exact hall (strToInt t) (by simp)
          · exact hall (strToInt t) (by simp)
          · exact hall (strToInt t) (by simp)
          · exact hall (strToInt t) (by simp)
  · simp at h

theorem checkLine_inl_ne_ok (n : Nat) (ex ey : Int) (ts : List (List Char)) (e : CheckResult)
    (h : checkLine n ex ey ts = Sum.inl e) : e ≠ CheckResult.ok := by
  unfold checkLine at h
  split at h
  · split at h
    · injection h with h2
      subst h2
      simp
    · split at h
      · injection h with h2
        subst h2
        simp
      · split at h
        · injection h with h2
          subst h2
          simp
        · simp at h
  · injection h with h2
    subst h2
    simp

theorem checkLines_cons (n : Nat) (ex ey : Int) (line : List Char) (rest : List (List Char)) :
    checkLines n ex ey (line :: rest) =
      match checkLine n ex ey (tokenize line) with
      | Sum.inl e => e
      | Sum.inr state => checkLines (n + 1) state.1 state.2 rest := rfl

theorem checkCoords_cons (ex ey x y : Int) (rest : List (Int × Int)) :
    checkCoords ex ey ((x, y) :: rest) =
      if x = ex ∧ y = ey then checkCoords ex (ey + 1) rest
      else if x = ex + 1 ∧ y = 0 ∧ ¬ ey = 0 then checkCoords (ex + 1) 1 rest
      else false := rfl

theorem checkLines_ok_iff (lines : List (List Char)) :
    ∀ (n : Nat) (ex ey : Int), (∀ l ∈ lines, wellFormedLine l) →
      (checkLines n ex ey lines = CheckResult.ok ↔
        checkCoords ex ey (coordsOf lines) = true) := by
  induction lines with
  | nil => intro n ex ey _; simp [checkLines, coordsOf, checkCoords]
  | cons l ls ih =>
    intro n ex ey h
    have hl := h l (List.mem_cons_self l ls)
    have hls : ∀ u ∈ ls, wellFormedLine u := fun u hu => h u (List.mem_cons_of_mem l hu)
    rw [checkLines_cons, checkLine_of_wf n ex ey l hl]
    have hco : coordsOf (l :: ls) = (xOf l, yOf l) :: coordsOf ls := rfl
    rw [hco, checkCoords_cons]
    by_cases h1 : xOf l = ex ∧ yOf l = ey
    · rw [if_pos h1, if_pos h1]
      exact ih (n + 1) ex (ey + 1) hls
    · rw [if_neg h1, if_neg h1]
      by_cases h2 : xOf l = ex + 1 ∧ yOf l = 0 ∧ ¬ ey = 0
      · rw [if_pos h2, if_pos h2]
        exact ih (n + 1) (ex + 1) 1 hls
      · rw [if_neg h2, if_neg h2]
        simp

theorem checkLines_ok_wf (lines : List (List Char)) :
    ∀ (n : Nat) (ex ey : Int), checkLines n ex ey lines = CheckResult.ok →
      ∀ l ∈ lines, wellFormedLine l := by
  induction lines with
  | nil => intro n ex ey _ l hl; cases hl
  | cons l ls ih =>
    intro n ex ey h u hu
    rw [checkLines_cons] at h
    rcases hcl : checkLine n ex ey (tokenize l) with e | st
    · rw [hcl] at h
      have he : e = CheckResult.ok := h
      exact absurd he (checkLine_inl_ne_ok _ _ _ _ _ hcl)
    · rw [hcl] at h
      have h' : checkLines (n + 1) st.1 st.2 ls = CheckResult.ok := h
      rcases List.mem_cons.1 hu with rfl | hu
      · exact checkLine_inr_wf _ _ _ _ _ hcl
      · exact ih (n + 1) st.1 st.2 h' u hu

/-! Characterization of the coordinate state machine. -/

theorem colFrom_zero (x y : Int) : colFrom x y 0 = [] := by
  simp [colFrom]

theorem gridCoordsFrom_cons (x : Int) (k : Nat) (ks : List Nat) :
    gridCoordsFrom x (k :: ks) = colFrom x 0 k ++ gridCoordsFrom (x + 1) ks := rfl

theorem gridXs_cons (x : Int) (k : Nat) (ks : List Nat) :
    gridXs x (k :: ks) = List.replicate k x ++ gridXs (x + 1) ks := rfl

theorem colFrom_succ (x y : Int) (m : Nat) :
    colFrom x y (m + 1) = (x, y) :: colFrom x (y + 1) m := by
  simp only [colFrom, List.range_succ_eq_map, List.map_cons, List.map_map]
  congr 1
  · simp
  · apply List.map_congr_left
    intro j hj
    simp only [Function.comp_apply]
    push_cast
    ring_nf

theorem checkCoords_colFrom (m : Nat) : ∀ (x y : Int) (rest : List (Int × Int)),
    checkCoords x y (colFrom x y m ++ rest) = checkCoords x (y + (m : Int)) rest := by
  induction m with
  | zero => intro x y rest; simp [colFrom]
  | succ k ih =>
    intro x y rest
    rw [colFrom_succ, List.cons_append, checkCoords_cons, if_pos ⟨rfl, rfl⟩, ih x (y + 1) rest]
    congr 1
    push_cast
    ring

theorem checkCoords_gridFrom : ∀ ks : List Nat, (∀ k ∈ ks, 0 < k) →
    ∀ x y : Int, ¬ y = 0 → checkCoords x y (gridCoordsFrom (x + 1) ks) = true := by
  intro ks
  induction ks with
  | nil => intro _ x y _; rfl
  | cons k ks ih =>
    intro h x y hy
    obtain ⟨k2, rfl⟩ : ∃ k2, k = k2 + 1 :=
      ⟨k - 1, by have := h k (List.mem_cons_self k ks); omega⟩
    rw [gridCoordsFrom_cons, colFrom_succ, List.cons_append, checkCoords_cons]
    rw [if_neg (by rintro ⟨h1, -⟩; omega), if_pos ⟨rfl, rfl, hy⟩]
    have hcol : colFrom (x + 1) (0 + 1) k2 = colFrom (x + 1) 1 k2 := by norm_num
    rw [hcol, checkCoords_colFrom k2 (x + 1) 1 (gridCoordsFrom (x + 1 + 1) ks)]
    exact ih (fun u hu => h u (List.mem_cons_of_mem _ hu)) (x + 1) _ (by omega)

theorem checkCoords_sound : ∀ (coords : List (Int × Int)) (x y : Int), 0 < y →
    checkCoords x y coords = true →
    ∃ m ks, (∀ k ∈ ks, 0 < k) ∧ coords = colFrom x y m ++ gridCoordsFrom (x + 1) ks := by
  intro coords
  induction coords with
  | nil =>
    intro x y _ _
    exact ⟨0, [], by simp, by simp [colFrom, gridCoordsFrom]⟩
  | cons p rest ih =>
    intro x y hy h
    obtain ⟨a, b⟩ := p
    rw [checkCoords_cons] at h
    by_cases h1 : a = x ∧ b = y
    · rw [if_pos h1] at h
      obtain ⟨m, ks, hks, hrest⟩ := ih x (y + 1) (by omega) h
      obtain ⟨rfl, rfl⟩ := h1
      exact ⟨m + 1, ks, hks, by rw [colFrom_succ, List.cons_append, hrest]⟩
    · rw [if_neg h1] at h
      by_cases h2 : a = x + 1 ∧ b = 0 ∧ ¬ y = 0
      · rw [if_pos h2] at h
        obtain ⟨m, ks, hks, hrest⟩ := ih (x + 1) 1 (by omega) h
        obtain ⟨rfl, rfl, -⟩ := h2
        refine ⟨0, (m + 1) :: ks, ?_, ?_⟩
        · intro k hk
          rcases List.mem_cons.1 hk with rfl | hk
          · omega
          · exact hks k hk
        · rw [colFrom_zero, List.nil_append, gridCoordsFrom_cons, colFrom_succ, List.cons_append]
          rw [hrest]
          norm_num
      · rw [if_neg h2] at h
        simp at h

theorem checkCoords_top (coords : List (Int × Int)) :
    checkCoords 0 0 coords = true ↔
      coords = [] ∨ ∃ ks, ks ≠ [] ∧ (∀ k ∈ ks, 0 < k) ∧ coords = gridCoordsFrom 0 ks := by
  constructor
  · intro h
    rcases coords with _ | ⟨⟨a, b⟩, rest⟩
    · exact Or.inl rfl
    · right
      rw [checkCoords_cons] at h
      by_cases h1 : a = (0 : Int) ∧ b = (0 : Int)
      · rw [if_pos h1] at h
        obtain ⟨m, ks, hks, hrest⟩ := checkCoords_sound rest 0 1 (by omega) h
        obtain ⟨rfl, rfl⟩ := h1
        refine ⟨(m + 1) :: ks, by simp, ?_, ?_⟩
        · intro k hk
          rcases List.mem_cons.1 hk with rfl | hk
          · omega
          · exact hks k hk
        · rw [gridCoordsFrom_cons, colFrom_succ, List.cons_append, hrest]
          norm_num
      · rw [if_neg h1, if_neg (by rintro ⟨-, -, hc⟩; exact hc rfl)] at h
        simp at h
  · rintro (rfl | ⟨ks, hne, hpos, rfl⟩)
    · rfl
    · rcases ks with _ | ⟨k, ks⟩
      · exact absurd rfl hne
      obtain ⟨k2, rfl⟩ : ∃ k2, k = k2 + 1 :=
        ⟨k - 1, by have := hpos k (List.mem_cons_self k ks); omega⟩
      rw [gridCoordsFrom_cons, colFrom_succ, List.cons_append, checkCoords_cons,
        if_pos ⟨rfl, rfl⟩]
      rw [checkCoords_colFrom k2 0 (0 + 1) (gridCoordsFrom (0 + 1) ks)]
      exact checkCoords_gridFrom ks (fun u hu => hpos u (List.mem_cons_of_mem _ hu)) 0 _
        (by push_cast; omega)

theorem gridCoordsFrom_ne_nil (ks : List Nat) (x : Int) (hne : ks ≠ [])
    (hpos : ∀ k ∈ ks, 0 < k) : gridCoordsFrom x ks ≠ [] := by
  rcases ks with _ | ⟨k, ks⟩
  · exact absurd rfl hne
  obtain ⟨k2, rfl⟩ : ∃ k2, k = k2 + 1 :=
    ⟨k - 1, by have := hpos k (List.mem_cons_self k ks); omega⟩
  rw [gridCoordsFrom_cons, colFrom_succ]
  simp

theorem colFrom_map_fst (x y : Int) (m : Nat) :
    (colFrom x y m).map Prod.fst = List.replicate m x := by
  unfold colFrom
  rw [List.map_map]
  have hf : (Prod.fst ∘ fun j : Nat => (x, y + (j : Int))) = fun _ => x := rfl
  rw [hf]
  simp

theorem gridCoordsFrom_map_fst : ∀ (ks : List Nat) (x : Int),
    (gridCoordsFrom x ks).map Prod.fst = gridXs x ks := by
  intro ks
  induction ks with
  | nil => intro x; rfl
  | cons k ks ih =>
    intro x
    rw [gridCoordsFrom_cons, gridXs_cons, List.map_append, colFrom_map_fst, ih]

/-! File-level unfolding of isMazeFile. -/

theorem isMazeFile_eq_true_iff (f : MazeFile) :
    isMazeFile f = true ↔ isMazeFileCheck f = CheckResult.ok := by
  unfold isMazeFile
  exact beq_iff_eq

theorem isMazeFileCheck_ok_elim (f : MazeFile) (h : isMazeFileCheck f = CheckResult.ok) :
    f.isFile = true ∧ f.canOpen = true ∧ f.lines ≠ [] ∧
      checkLines 0 0 0 f.lines = CheckResult.ok := by
  unfold isMazeFileCheck at h
  split_ifs at h with h1 h2 h3
  refine ⟨?_, ?_, ?_, h⟩
  · simpa using h1
  · simpa using h2
  · intro hnil
    exact h3 (by simp [hnil])

theorem isMazeFileCheck_of_flags (f : MazeFile) (h1 : f.isFile = true)
    (h2 : f.canOpen = true) (h3 : f.lines ≠ []) :
    isMazeFileCheck f = checkLines 0 0 0 f.lines := by
  unfold isMazeFileCheck
  rw [if_neg (by simp [h1]), if_neg (by simp [h2]), if_neg (by simpa using h3)]

/-! Save and load lemmas. -/

theorem loadMazeAux_nil (maze : List (List BasicTile)) (column : List BasicTile) :
    loadMazeAux maze column [] = maze ++ [column] := rfl

theorem loadMazeAux_cons (maze : List (List BasicTile)) (column : List BasicTile)
    (line : List Char) (rest : List (List Char)) :
    loadMazeAux maze column (line :: rest) =
      if (maze.length : Int) < strToInt ((tokenize line).getD 0 []) then
        loadMazeAux (maze ++ [column]) [loadTile (tokenize line)] rest
      else
        loadMazeAux maze (column ++ [loadTile (tokenize line)]) rest := rfl

theorem saveColFrom_nil (x y : Nat) : saveColFrom x y [] = [] := rfl

theorem saveColFrom_cons (x y : Nat) (t : BasicTile) (ts : List BasicTile) :
    saveColFrom x y (t :: ts) = saveLine x y t :: saveColFrom x (y + 1) ts := rfl

theorem saveFrom_cons (x : Nat) (col : List BasicTile) (cols : List (List BasicTile)) :
    saveFrom x (col :: cols) = saveColFrom x 0 col ++ saveFrom (x + 1) cols := rfl

theorem loadTile_saveLine (x y : Nat) (t : BasicTile) :
    loadTile (tokenize (saveLine x y t)) = t := by
  rw [tokenize_saveLine]
  rcases t with ⟨a, b, c, d⟩
  cases a <;> cases b <;> cases c <;> cases d <;> rfl

theorem xOf_saveLine (x y : Nat) (t : BasicTile) : xOf (saveLine x y t) = (x : Int) := by
  rw [xOf, tokenize_saveLine]
  show strToInt (natToChars x) = (x : Int)
  exact strToInt_natToChars x

theorem yOf_saveLine (x y : Nat) (t : BasicTile) : yOf (saveLine x y t) = (y : Int) := by
  rw [yOf, tokenize_saveLine]
  show strToInt (natToChars y) = (y : Int)
  exact strToInt_natToChars y

theorem loadMazeAux_saveColFrom : ∀ (ts : List BasicTile) (x y : Nat)
    (maze : List (List BasicTile)) (column : List BasicTile) (rest : List (List Char)),
    maze.length = x →
    loadMazeAux maze column (saveColFrom x y ts ++ rest) =
      loadMazeAux maze (column ++ ts) rest := by
  intro ts
  induction ts with
  | nil =>
    intro x y maze column rest _
    rw [saveColFrom_nil, List.nil_append, List.append_nil]
  | cons t ts ih =>
    intro x y maze column rest h
    rw [saveColFrom_cons, List.cons_append, loadMazeAux_cons]
    have hx : strToInt ((tokenize (saveLine x y t)).getD 0 []) = (x : Int) := xOf_saveLine x y t
    rw [hx, loadTile_saveLine]
    rw [if_neg (by rw [h]; omega)]
    rw [ih x (y + 1) maze (column ++ [t]) rest h]
    rw [List.append_assoc, List.singleton_append]

theorem loadMazeAux_saveFrom : ∀ (cols : List (List BasicTile)) (x : Nat)
    (maze : List (List BasicTile)) (column : List BasicTile),
    (∀ c ∈ cols, c ≠ []) → maze.length + 1 = x →
    loadMazeAux maze column (saveFrom x cols) = (maze ++ [column]) ++ cols := by
  intro cols
  induction cols with
  | nil =>
    intro x maze column _ _
    show loadMazeAux maze column [] = (maze ++ [column]) ++ []
    rw [loadMazeAux_nil, List.append_nil]
  | cons col cols ih =>
    intro x maze column hne h
    rcases col with _ | ⟨t, ts⟩
    · exact absurd rfl (hne [] (List.mem_cons_self [] cols))
    rw [saveFrom_cons, saveColFrom_cons, List.cons_append, loadMazeAux_cons]
    have hx : strToInt ((tokenize (saveLine x 0 t)).getD 0 []) = (x : Int) := xOf_saveLine x 0 t
    rw [hx, loadTile_saveLine]
    rw [if_pos (by omega)]
    rw [loadMazeAux_saveColFrom ts x 1 (maze ++ [column]) [t] _ (by simp; omega)]
    rw [ih (x + 1) (maze ++ [column]) ([t] ++ ts)
      (fun c hc => hne c (List.mem_cons_of_mem _ hc)) (by simp; omega)]
    simp

theorem loadMaze_saveMaze (maze : List (List BasicTile)) (hne : maze ≠ [])
    (hcols : ∀ c ∈ maze, c ≠ []) : loadMaze (saveMaze maze) = maze := by
  rcases maze with _ | ⟨col, cols⟩
  · exact absurd rfl hne
  rcases col with _ | ⟨t, ts⟩
  · exact absurd rfl (hcols [] (List.mem_cons_self [] cols))
  show loadMazeAux [] [] (saveFrom 0 ((t :: ts) :: cols)) = (t :: ts) :: cols
  rw [saveFrom_cons]
  rw [loadMazeAux_saveColFrom (t :: ts) 0 0 [] [] _ rfl]
  rw [loadMazeAux_saveFrom cols 1 [] ([] ++ (t :: ts))
    (fun c hc => hcols c (List.mem_cons_of_mem _ hc)) rfl]
  simp

/-! Shape of the grid built by loadMaze. -/

theorem loadMazeAux_lengths : ∀ (lines : List (List Char)) (maze : List (List BasicTile))
    (column : List BasicTile) (m : Nat) (ks : List Nat),
    (∀ k ∈ ks, 0 < k) →
    lines.map xOf = List.replicate m (maze.length : Int) ++ gridXs ((maze.length : Int) + 1) ks →
    (loadMazeAux maze column lines).map List.length =
      maze.map List.length ++ (column.length + m) :: ks := by
  intro lines
  induction lines with
  | nil =>
    intro maze column m ks hpos h
    rw [List.map_nil] at h
    have hm : m = 0 := by
      rcases m with _ | m2
      · rfl
      · rw [List.replicate_succ] at h
        simp at h
    subst hm
    rw [List.replicate_zero, List.nil_append] at h
    have hks : ks = [] := by
      rcases ks with _ | ⟨k, ks2⟩
      · rfl
      · exfalso
        obtain ⟨k2, rfl⟩ : ∃ k2, k = k2 + 1 :=
          ⟨k - 1, by have := hpos k (List.mem_cons_self k ks2); omega⟩
        rw [gridXs_cons, List.replicate_succ] at h
        simp at h
    subst hks
    rw [loadMazeAux_nil]
    simp
  | cons l ls ih =>
    intro maze column m ks hpos h
    rw [List.map_cons] at h
    rcases m with _ | m2
    · rw [List.replicate_zero, List.nil_append] at h
      rcases ks with _ | ⟨k, ks2⟩
      · rw [show gridXs ((maze.length : Int) + 1) [] = [] from rfl] at h
        simp at h
      · obtain ⟨k2, rfl⟩ : ∃ k2, k = k2 + 1 :=
          ⟨k - 1, by have := hpos k (List.mem_cons_self k ks2); omega⟩
        rw [gridXs_cons, List.replicate_succ, List.cons_append] at h
        injection h with h1 h2
        rw [loadMazeAux_cons, if_pos (by rw [xOf] at h1; rw [h1]; omega)]
        have hlen : (((maze ++ [column]).length : Nat) : Int) = (maze.length : Int) + 1 := by
          simp
        have ih2 := ih (maze ++ [column]) [loadTile (tokenize l)] k2 ks2
          (fun u hu => hpos u (List.mem_cons_of_mem _ hu)) (by rw [hlen]; exact h2)
        rw [ih2]
        simp [Nat.add_comm]
    · rw [List.replicate_succ, List.cons_append] at h
      injection h with h1 h2
      rw [loadMazeAux_cons, if_neg (by rw [xOf] at h1; rw [h1]; omega)]
      have ih2 := ih maze (column ++ [loadTile (tokenize l)]) m2 ks hpos h2
      rw [ih2]
      have harith : (column ++ [loadTile (tokenize l)]).length + m2 = column.length + (m2 + 1) := by
        simp
        omega
      rw [harith]

theorem loadMaze_lengths (lines : List (List Char)) (ks : List Nat) (hne : ks ≠ [])
    (hpos : ∀ k ∈ ks, 0 < k) (hco : coordsOf lines = gridCoordsFrom 0 ks) :
    (loadMaze lines).map List.length = ks := by
  have hxs : lines.map xOf = gridXs 0 ks := by
    have h1 : (coordsOf lines).map Prod.fst = lines.map xOf := by
      rw [coordsOf, List.map_map]
      rfl
    rw [← h1, hco, gridCoordsFrom_map_fst]
  rcases ks with _ | ⟨k, ks2⟩
  · exact absurd rfl hne
  rw [gridXs_cons] at hxs
  show (loadMazeAux [] [] lines).map List.length = k :: ks2
  have happ := loadMazeAux_lengths lines [] [] k ks2
    (fun u hu => hpos u (List.mem_cons_of_mem _ hu))
    (by simp only [List.length_nil, Nat.cast_zero]; exact hxs)
  rw [happ]
  simp

/-! Last element and per-column counts of the x-value sequence. -/

theorem getLastD_irrel {α : Type} : ∀ l : List α, l ≠ [] →
    ∀ d1 d2 : α, l.getLastD d1 = l.getLastD d2 := by
  intro l
  induction l with
  | nil => intro h; exact absurd rfl h
  | cons a l ih =>
    intro _ d1 d2
    rcases l with _ | ⟨b, l2⟩
    · rfl
    · rfl

theorem getLastD_append_right {α : Type} (l2 : List α) (h : l2 ≠ []) :
    ∀ (l1 : List α) (d : α), (l1 ++ l2).getLastD d = l2.getLastD d := by
  intro l1
  induction l1 with
  | nil => intro d; rfl
  | cons a l1 ih =>
    intro d
    rw [List.cons_append, List.getLastD_cons]
    rcases hl : l1 ++ l2 with _ | ⟨b, l3⟩
    · exact absurd (List.append_eq_nil.1 hl).2 h
    · rw [← hl, ih a]
      exact getLastD_irrel l2 h a d

theorem gridXs_ne_nil (ks : List Nat) (x : Int) (hne : ks ≠ [])
    (hpos : ∀ k ∈ ks, 0 < k) : gridXs x ks ≠ [] := by
  rcases ks with _ | ⟨k, ks2⟩
  · exact absurd rfl hne
  obtain ⟨k2, rfl⟩ : ∃ k2, k = k2 + 1 :=
    ⟨k - 1, by have := hpos k (List.mem_cons_self k ks2); omega⟩
  rw [gridXs_cons, List.replicate_succ]
  simp

theorem gridXs_getLastD : ∀ (ks : List Nat) (x : Int), ks ≠ [] → (∀ k ∈ ks, 0 < k) →
    (gridXs x ks).getLastD 0 = x + (ks.length : Int) - 1 := by
  intro ks
  induction ks with
  | nil => intro x h _; exact absurd rfl h
  | cons k ks ih =>
    intro x _ hpos
    by_cases hks : ks = []
    · subst hks
      obtain ⟨k2, rfl⟩ : ∃ k2, k = k2 + 1 :=
        ⟨k - 1, by have := hpos k (List.mem_cons_self k []); omega⟩
      rw [gridXs_cons, show gridXs (x + 1) [] = [] from rfl, List.append_nil]
      rw [List.replicate_succ', List.getLastD_concat]
      simp
    · rw [gridXs_cons]
      rw [getLastD_append_right _
        (gridXs_ne_nil ks (x + 1) hks (fun u hu => hpos u (List.mem_cons_of_mem _ hu)))]
      rw [ih (x + 1) hks (fun u hu => hpos u (List.mem_cons_of_mem _ hu))]
      simp only [List.length_cons]
      push_cast
      ring

theorem gridXs_lower : ∀ (ks : List Nat) (x : Int), ∀ a ∈ gridXs x ks, x ≤ a := by
  intro ks
  induction ks with
  | nil =>
    intro x a ha
    rw [show gridXs x [] = [] from rfl] at ha
    cases ha
  | cons k ks ih =>
    intro x a ha
    rw [gridXs_cons] at ha
    rcases List.mem_append.1 ha with ha | ha
    · rw [List.eq_of_mem_replicate ha]
    · have := ih (x + 1) a ha
      omega

theorem gridXs_count : ∀ (ks : List Nat) (i : Nat) (x : Int), i < ks.length →
    List.count (x + (i : Int)) (gridXs x ks) = ks.getD i 0 := by
  intro ks
  induction ks with
  | nil =>
    intro i x h
    simp at h
  | cons k ks ih =>
    intro i x h
    rw [gridXs_cons, List.count_append]
    rcases i with _ | i2
    · have h0 : x + ((0 : Nat) : Int) = x := by simp
      rw [h0, List.count_replicate_self]
      have hz : List.count x (gridXs (x + 1) ks) = 0 := by
        rw [List.count_eq_zero]
        intro hmem
        have := gridXs_lower ks (x + 1) x hmem
        omega
      rw [hz]
      simp
    · have hcast : x + ((i2 + 1 : Nat) : Int) = (x + 1) + (i2 : Int) := by
        push_cast
        ring
      rw [hcast]
      have hrep : List.count ((x + 1) + (i2 : Int)) (List.replicate k x) = 0 := by
        rw [List.count_eq_zero]
        intro hmem
        have := List.eq_of_mem_replicate hmem
        omega
      rw [hrep, ih i2 (x + 1) (by simpa using h)]
      simp

/-! Saved files are made of well-formed lines whose coordinates enumerate the
column lengths. -/

theorem mem_saveColFrom : ∀ (ts : List BasicTile) (x y : Nat) (l : List Char),
    l ∈ saveColFrom x y ts → ∃ b t, l = saveLine x b t := by
  intro ts
  induction ts with
  | nil =>
    intro x y l hl
    rw [saveColFrom_nil] at hl
    cases hl
  | cons t ts ih =>
    intro x y l hl
    rw [saveColFrom_cons] at hl
    rcases List.mem_cons.1 hl with rfl | hl
    · exact ⟨y, t, rfl⟩
    · exact ih x (y + 1) l hl

theorem mem_saveFrom : ∀ (cols : List (List BasicTile)) (x : Nat) (l : List Char),
    l ∈ saveFrom x cols → ∃ a b t, l = saveLine a b t := by
  intro cols
  induction cols with
  | nil => intro x l hl; cases hl
  | cons col cols ih =>
    intro x l hl
    rw [saveFrom_cons] at hl
    rcases List.mem_append.1 hl with hl | hl
    · obtain ⟨b, t, rfl⟩ := mem_saveColFrom col x 0 l hl
      exact ⟨x, b, t, rfl⟩
    · exact ih (x + 1) l hl

theorem wellFormedLine_saveLine (x y : Nat) (t : BasicTile) :
    wellFormedLine (saveLine x y t) := by
  refine ⟨?_, ?_, ?_⟩
  · rw [tokenize_saveLine]
    rfl
  · rw [tokenize_saveLine]
    intro u hu
    simp only [List.mem_cons, List.not_mem_nil, or_false] at hu
    rcases hu with rfl | rfl | rfl | rfl | rfl | rfl
    · exact isInt_natToChars x
    · exact isInt_natToChars y
    · cases t.walls Direction.north <;> decide
    · cases t.walls Direction.east <;> decide
    · cases t.walls Direction.south <;> decide
    · cases t.walls Direction.west <;> decide
  · rw [tokenize_saveLine]
    intro u hu
    simp only [List.drop_succ_cons, List.drop_zero, List.mem_cons,
      List.not_mem_nil, or_false] at hu
    rcases hu with rfl | rfl | rfl | rfl
    · cases t.walls Direction.north <;> decide
    · cases t.walls Direction.east <;> decide
    · cases t.walls Direction.south <;> decide
    · cases t.walls Direction.west <;> decide

theorem coordsOf_append (l1 l2 : List (List Char)) :
    coordsOf (l1 ++ l2) = coordsOf l1 ++ coordsOf l2 := by
  unfold coordsOf
  exact List.map_append _ l1 l2

theorem coordsOf_saveColFrom : ∀ (ts : List BasicTile) (x y : Nat),
    coordsOf (saveColFrom x y ts) = colFrom (x : Int) (y : Int) ts.length := by
  intro ts
  induction ts with
  | nil =>
    intro x y
    rw [saveColFrom_nil, List.length_nil, colFrom_zero]
    rfl
  | cons t ts ih =>
    intro x y
    rw [saveColFrom_cons]
    rw [show coordsOf (saveLine x y t :: saveColFrom x (y + 1) ts) =
      (xOf (saveLine x y t), yOf (saveLine x y t)) :: coordsOf (saveColFrom x (y + 1) ts)
      from rfl]
    rw [xOf_saveLine, yOf_saveLine, ih x (y + 1), List.length_cons, colFrom_succ]
    have hc : ((y + 1 : Nat) : Int) = (y : Int) + 1 := by push_cast; ring
    rw [hc]

theorem coordsOf_saveFrom : ∀ (cols : List (List BasicTile)) (x : Nat),
    coordsOf (saveFrom x cols) = gridCoordsFrom (x : Int) (cols.map List.length) := by
  intro cols
  induction cols with
  | nil => intro x; rfl
  | cons col cols ih =>
    intro x
    rw [saveFrom_cons, coordsOf_append, coordsOf_saveColFrom, ih (x + 1),
      List.map_cons, gridCoordsFrom_cons]
    have h0 : ((0 : Nat) : Int) = 0 := rfl
    have h1 : ((x + 1 : Nat) : Int) = (x : Int) + 1 := by push_cast; ring
    rw [h0, h1]

theorem xs_of_coords (lines : List (List Char)) (ks : List Nat)
    (hco : coordsOf lines = gridCoordsFrom 0 ks) : lines.map xOf = gridXs 0 ks := by
  have h1 : (coordsOf lines).map Prod.fst = lines.map xOf := by
    rw [coordsOf, List.map_map]
    rfl
  rw [← h1, hco, gridCoordsFrom_map_fst]

theorem checkLine_wrong_count (n : Nat) (ex ey : Int) (toks : List (List Char))
    (h : toks.length ≠ 6) :
    checkLine n ex ey toks = Sum.inl (CheckResult.wrongTokenCount (n + 1) toks.length) := by
  rcases toks with _ | ⟨t0, _ | ⟨t1, _ | ⟨t2, _ | ⟨t3, _ | ⟨t4, _ | ⟨t5, _ | ⟨t6, ts⟩⟩⟩⟩⟩⟩⟩
  · rfl
  · rfl
  · rfl
  · rfl
  · rfl
  · rfl
  · simp at h
  · rfl

/-! The claims. -/

/-- C1: for every existing, openable file whose every line tokenizes into
exactly six base-10 integers with the last four in 0 or 1, isMazeFile returns
true if and only if the (x, y) pairs taken line by line from the top are
exactly (0,0), ..., (0,k0-1), (1,0), ..., (1,k1-1), (2,0), ... for some
positive column lengths k0, k1, ... . -/
theorem c1_isMazeFile_iff_enumeration (f : MazeFile) (h1 : f.isFile = true)
    (h2 : f.canOpen = true) (hwf : ∀ l ∈ f.lines, wellFormedLine l) :
    isMazeFile f = true ↔
      ∃ ks, ks ≠ [] ∧ (∀ k ∈ ks, 0 < k) ∧ coordsOf f.lines = gridCoordsFrom 0 ks := by
  rw [isMazeFile_eq_true_iff]
  by_cases hnil : f.lines = []
  · constructor
    · intro h
      obtain ⟨-, -, hne, -⟩ := isMazeFileCheck_ok_elim f h
      exact absurd hnil hne
    · rintro ⟨ks, hne, hpos, hco⟩
      exfalso
      rw [hnil] at hco
      exact gridCoordsFrom_ne_nil ks 0 hne hpos hco.symm
  · rw [isMazeFileCheck_of_flags f h1 h2 hnil]
    rw [checkLines_ok_iff f.lines 0 0 0 hwf, checkCoords_top]
    constructor
    · rintro (hc | h)
      · rw [coordsOf] at hc
        exact absurd (List.map_eq_nil_iff.1 hc) hnil
      · exact h
    · intro h
      exact Or.inr h

/-- C1 witness: the single-line file 0 0 0 0 0 0 satisfies the hypotheses. -/
theorem c1_witness :
    isMazeFile ⟨true, true, [line000000]⟩ = true ↔
      ∃ ks, ks ≠ [] ∧ (∀ k ∈ ks, 0 < k) ∧
        coordsOf [line000000] = gridCoordsFrom 0 ks :=
  c1_isMazeFile_iff_enumeration ⟨true, true, [line000000]⟩ rfl rfl (by decide)

/-- C2 counterexample: the file with lines (0,0) then (1,0) is accepted by
isMazeFile, contradicting the claim that it is rejected. -/
theorem c2_counterexample :
    isMazeFile ⟨true, true, [line000000, line100000]⟩ = true := by decide

/-- C2 amended: for the file whose first line carries (0,0) and whose second
line carries (1,0), isMazeFile accepts: after the first line expectedY is 1,
so case B fires and the second line starts a new single-row column. -/
theorem c2_amended_accepts :
    isMazeFileCheck ⟨true, true, [line000000, line100000]⟩ = CheckResult.ok := by decide

/-- C3: for every grid obtained by loadMaze from a conformant file, loading
the file produced by saveMaze yields the same grid. -/
theorem c3_roundtrip (f : MazeFile) (h : isMazeFile f = true) :
    loadMaze (saveMaze (loadMaze f.lines)) = loadMaze f.lines := by
  rw [isMazeFile_eq_true_iff] at h
  obtain ⟨-, -, hne, hok⟩ := isMazeFileCheck_ok_elim f h
  have hwf := checkLines_ok_wf f.lines 0 0 0 hok
  have hcc := (checkLines_ok_iff f.lines 0 0 0 hwf).1 hok
  rcases (checkCoords_top (coordsOf f.lines)).1 hcc with hcnil | ⟨ks, hkne, hpos, hco⟩
  · exfalso
    rw [coordsOf] at hcnil
    exact hne (List.map_eq_nil_iff.1 hcnil)
  · have hlen := loadMaze_lengths f.lines ks hkne hpos hco
    apply loadMaze_saveMaze
    · intro hgn
      rw [hgn] at hlen
      exact hkne hlen.symm
    · intro c hc
      have hmem : c.length ∈ ks := by
        rw [← hlen]
        exact List.mem_map_of_mem List.length hc
      have hpc := hpos c.length hmem
      intro hcnil2
      rw [hcnil2] at hpc
      simp at hpc

/-- C3 witness: the three-line conformant file (0,0), (1,0), (1,1). -/
theorem c3_witness :
    loadMaze (saveMaze (loadMaze [line000000, line100000, line110000])) =
      loadMaze [line000000, line100000, line110000] :=
  c3_roundtrip ⟨true, true, [line000000, line100000, line110000]⟩ (by decide)

/-- C4 counterexample: the empty grid saves to an empty file, which
isMazeFile rejects, so not every grid's saved file is accepted. -/
theorem c4_counterexample :
    isMazeFile ⟨true, true, saveMaze ([] : List (List BasicTile))⟩ = false := by decide

/-- C4 amended: for every grid with at least one column and no empty column,
the file written by saveMaze is accepted by isMazeFile. -/
theorem c4_save_accepted (maze : List (List BasicTile)) (hne : maze ≠ [])
    (hcols : ∀ c ∈ maze, c ≠ []) :
    isMazeFile ⟨true, true, saveMaze maze⟩ = true := by
  rw [isMazeFile_eq_true_iff]
  have hco : coordsOf (saveMaze maze) = gridCoordsFrom 0 (maze.map List.length) := by
    rw [show saveMaze maze = saveFrom 0 maze from rfl, coordsOf_saveFrom maze 0]
    norm_num
  have hwf : ∀ l ∈ saveMaze maze, wellFormedLine l := by
    intro l hl
    obtain ⟨a, b, t, rfl⟩ := mem_saveFrom maze 0 l hl
    exact wellFormedLine_saveLine a b t
  have hkne : maze.map List.length ≠ [] := by simpa using hne
  have hkpos : ∀ k ∈ maze.map List.length, 0 < k := by
    intro k hk
    obtain ⟨c, hc, rfl⟩ := List.mem_map.1 hk
    exact List.length_pos.2 (hcols c hc)
  have hlne : saveMaze maze ≠ [] := by
    intro hnil
    have hz : coordsOf (saveMaze maze) = [] := by rw [hnil]; rfl
    rw [hco] at hz
    exact gridCoordsFrom_ne_nil _ 0 hkne hkpos hz
  rw [isMazeFileCheck_of_flags ⟨true, true, saveMaze maze⟩ rfl rfl hlne]
  show checkLines 0 0 0 (saveMaze maze) = CheckResult.ok
  rw [checkLines_ok_iff (saveMaze maze) 0 0 0 hwf, checkCoords_top]
  exact Or.inr ⟨maze.map List.length, hkne, hkpos, hco⟩

/-- C4 witness: a one-column, one-cell grid. -/
theorem c4_witness : isMazeFile ⟨true, true, saveMaze [[sampleTile]]⟩ = true :=
  c4_save_accepted [[sampleTile]] (by decide) (by decide)

/-- C5: the three-line file (0,0), (1,0), (1,1) is accepted, and the two-line
file (0,0), (2,0), where x jumps by 2, is rejected. -/
theorem c5_column_skip_rule :
    isMazeFile ⟨true, true, [line000000, line100000, line110000]⟩ = true ∧
      isMazeFile ⟨true, true, [line000000, line200000]⟩ = false := by decide

/-- C6: a file whose first line is 1 0 0 0 0 0 is rejected (with an
unexpected-coordinate diagnostic on line 1, whatever the remaining lines),
while the file whose single line is 0 0 0 0 0 0 is accepted. -/
theorem c6_first_line_rule :
    (∀ rest : List (List Char),
        isMazeFileCheck ⟨true, true, line100000 :: rest⟩ =
          CheckResult.unexpectedCoord 1 1 0 ∧
        isMazeFile ⟨true, true, line100000 :: rest⟩ = false) ∧
      isMazeFile ⟨true, true, [line000000]⟩ = true := by
  constructor
  · intro rest
    exact ⟨rfl, rfl⟩
  · decide

/-- C7 counterexample: a file containing a line with three tokens (line 2)
is rejected, but the diagnostic is the unexpected coordinate of line 1, not
the token count of that line. -/
theorem c7_counterexample :
    (tokenize lineThreeTokens).length = 3 ∧
      isMazeFileCheck ⟨true, true, [line010000, lineThreeTokens]⟩ =
        CheckResult.unexpectedCoord 1 0 1 := by decide

/-- C7 amended: every file containing a line with other than six tokens is
rejected; and when validation reaches such a line, it stops there with a
wrong-token-count diagnostic reporting the actual count of that line. -/
theorem c7_wrong_token_count :
    (∀ f : MazeFile, (∃ l ∈ f.lines, (tokenize l).length ≠ 6) →
        isMazeFile f = false) ∧
      ∀ (lineNum : Nat) (ex ey : Int) (line : List Char) (rest : List (List Char)),
        (tokenize line).length ≠ 6 →
        checkLines lineNum ex ey (line :: rest) =
          CheckResult.wrongTokenCount (lineNum + 1) (tokenize line).length := by
  constructor
  · intro f hex
    rcases hex with ⟨l, hl, hlen⟩
    cases hb : isMazeFile f
    · rfl
    · exfalso
      rw [isMazeFile_eq_true_iff] at hb
      obtain ⟨-, -, -, hok⟩ := isMazeFileCheck_ok_elim f hb
      exact hlen (checkLines_ok_wf f.lines 0 0 0 hok l hl).1
  · intro n ex ey line rest hlen
    rw [checkLines_cons, checkLine_wrong_count n ex ey (tokenize line) hlen]

/-- C7 witness: a single-line file whose line has three tokens. -/
theorem c7_witness :
    isMazeFile ⟨true, true, [lineThreeTokens]⟩ = false ∧
      checkLines 0 0 0 [lineThreeTokens] = CheckResult.wrongTokenCount 1 3 := by
  constructor
  · exact c7_wrong_token_count.1 ⟨true, true, [lineThreeTokens]⟩
      ⟨lineThreeTokens, List.mem_cons_self _ _, by decide⟩
  · exact (c7_wrong_token_count.2 0 0 0 lineThreeTokens [] (by decide)).trans (by decide)

/-- C8: a file containing a line of six integer tokens one of whose wall
values is neither 0 nor 1 is rejected; and when the validator examines such
a line whose coordinates it accepts, it reports the first offending wall
value with its position, never coercing it. -/
theorem c8_invalid_wall :
    (∀ f : MazeFile,
        (∃ l ∈ f.lines, (tokenize l).length = 6 ∧ (∀ t ∈ tokenize l, isInt t = true) ∧
          ∃ t ∈ (tokenize l).drop 2, ¬(strToInt t = 0 ∨ strToInt t = 1)) →
        isMazeFile f = false) ∧
      ∀ (lineNum : Nat) (ex ey : Int) (line : List Char) (rest : List (List Char))
        (t0 t1 t2 t3 t4 t5 : List Char),
        tokenize line = [t0, t1, t2, t3, t4, t5] →
        (∀ t ∈ [t0, t1, t2, t3, t4, t5], isInt t = true) →
        ((strToInt t0 = ex ∧ strToInt t1 = ey) ∨
          (strToInt t0 = ex + 1 ∧ strToInt t1 = 0 ∧ ¬ ey = 0)) →
        ∀ (i : Nat) (v : Int),
          firstBadWall 0 [strToInt t2, strToInt t3, strToInt t4, strToInt t5] = some (i, v) →
          checkLines lineNum ex ey (line :: rest) =
            CheckResult.invalidWall (lineNum + 1) (2 + i + 1) v := by
  constructor
  · intro f hex
    rcases hex with ⟨l, hl, -, -, t, ht, hbad⟩
    cases hb : isMazeFile f
    · rfl
    · exfalso
      rw [isMazeFile_eq_true_iff] at hb
      obtain ⟨-, -, -, hok⟩ := isMazeFileCheck_ok_elim f hb
      exact hbad ((checkLines_ok_wf f.lines 0 0 0 hok l hl).2.2 t ht)
  · intro n ex ey line rest t0 t1 t2 t3 t4 t5 htok hint hcoord i v hfbw
    rw [checkLines_cons, htok]
    have hfni : firstNonIntAux 0 [t0, t1, t2, t3, t4, t5] = none :=
      (firstNonIntAux_eq_none_iff _ 0).2 hint
    simp only [checkLine, hfni, hfbw]
    rcases hcoord with ⟨h1, h2⟩ | ⟨h1, h2, h3⟩
    · rw [if_pos ⟨h1, h2⟩]
    · rw [if_neg (by rintro ⟨hx, -⟩; omega), if_pos ⟨h1, h2, h3⟩]

/-- C8 witness: the single-line file 0 0 0 0 0 2 is rejected with an
invalid-wall diagnostic for value 2 in position 6 on line 1. -/
theorem c8_witness :
    isMazeFile ⟨true, true, [line000002]⟩ = false ∧
      checkLines 0 0 0 [line000002] = CheckResult.invalidWall 1 6 2 := by
  constructor
  · exact c8_invalid_wall.1 ⟨true, true, [line000002]⟩
      ⟨line000002, List.mem_cons_self _ _, by decide, by decide,
        ⟨['2'], by decide, by decide⟩⟩
  · exact (c8_invalid_wall.2 0 0 0 line000002 [] ['0'] ['0'] ['0'] ['0'] ['0'] ['2']
      (by decide) (by decide) (Or.inl ⟨by decide, by decide⟩) 3 2 (by decide)).trans
      (by decide)

/-- C9: a missing file, an unopenable file and an empty file are all
rejected before any line is examined (the lines are arbitrary), each with
its own distinct diagnostic. -/
theorem c9_precheck_diagnostics :
    (∀ (b : Bool) (lines : List (List Char)),
        isMazeFileCheck ⟨false, b, lines⟩ = CheckResult.notAFile ∧
          isMazeFile ⟨false, b, lines⟩ = false) ∧
      (∀ lines : List (List Char),
        isMazeFileCheck ⟨true, false, lines⟩ = CheckResult.cannotOpen ∧
          isMazeFile ⟨true, false, lines⟩ = false) ∧
      (isMazeFileCheck ⟨true, true, []⟩ = CheckResult.emptyFile ∧
        isMazeFile ⟨true, true, []⟩ = false) ∧
      CheckResult.notAFile ≠ CheckResult.emptyFile ∧
      CheckResult.cannotOpen ≠ CheckResult.emptyFile ∧
      CheckResult.notAFile ≠ CheckResult.cannotOpen := by
  refine ⟨?_, ?_, ⟨rfl, rfl⟩, by decide, by decide, by decide⟩
  · intro b lines
    exact ⟨rfl, rfl⟩
  · intro lines
    exact ⟨rfl, rfl⟩

/-- C10: for every conformant file, loadMaze returns a non-empty grid, the
number of columns is the x-value of the last line plus one, and column i has
as many cells as the file has lines with x-value i. -/
theorem c10_load_shape (f : MazeFile) (h : isMazeFile f = true) :
    loadMaze f.lines ≠ [] ∧
      (f.lines.map xOf).getLastD 0 = ((loadMaze f.lines).length : Int) - 1 ∧
      (loadMaze f.lines).map List.length =
        (List.range (loadMaze f.lines).length).map
          (fun i : Nat => f.lines.countP (fun l => xOf l == (i : Int))) := by
  rw [isMazeFile_eq_true_iff] at h
  obtain ⟨-, -, hne, hok⟩ := isMazeFileCheck_ok_elim f h
  have hwf := checkLines_ok_wf f.lines 0 0 0 hok
  have hcc := (checkLines_ok_iff f.lines 0 0 0 hwf).1 hok
  rcases (checkCoords_top (coordsOf f.lines)).1 hcc with hcnil | ⟨ks, hkne, hpos, hco⟩
  · exfalso
    rw [coordsOf] at hcnil
    exact hne (List.map_eq_nil_iff.1 hcnil)
  have hlen := loadMaze_lengths f.lines ks hkne hpos hco
  have hxs := xs_of_coords f.lines ks hco
  have hglen : (loadMaze f.lines).length = ks.length := by
    have hl2 := congrArg List.length hlen
    simpa using hl2
  refine ⟨?_, ?_, ?_⟩
  · intro hg
    rw [hg] at hlen
    exact hkne hlen.symm
  · rw [hxs, hglen, gridXs_getLastD ks 0 hkne hpos]
    ring
  · rw [hlen, hglen]
    apply List.ext_get
    · simp
    · intro i h1 h2
      rw [List.get_map, List.get_range]
      have hcount : f.lines.countP (fun l => xOf l == ((i : Nat) : Int)) =
          List.count ((i : Nat) : Int) (f.lines.map xOf) := by
        rw [List.count, List.countP_map]
        rfl
      rw [hcount, hxs]
      have hc := gridXs_count ks i 0 (by simpa using h1)
      rw [show (0 : Int) + (i : Int) = (i : Int) by ring] at hc
      rw [hc]
      rw [List.getD_eq_get ks 0 (by simpa using h1)]

/-- C10 witness: the three-line conformant file (0,0), (1,0), (1,1) loads
to two columns of sizes 1 and 2. -/
theorem c10_witness :
    loadMaze [line000000, line100000, line110000] ≠ [] ∧
      ([line000000, line100000, line110000].map xOf).getLastD 0 =
        ((loadMaze [line000000, line100000, line110000]).length : Int) - 1 ∧
      (loadMaze [line000000, line100000, line110000]).map List.length =
        (List.range (loadMaze [line000000, line100000, line110000]).length).map
          (fun i : Nat => [line000000, line100000, line110000].countP
            (fun l => xOf l == (i : Int))) :=
  c10_load_shape ⟨true, true, [line000000, line100000, line110000]⟩ (by decide)

end Sim
